import Mathlib

/-!
# Verification of the `tfjson` expression decoder (davedotdev/terraform-json)

This file is a shallow embedding, in Lean 4, of the Go package `tfjson`
(files `config.go` and `plan.go`): the `Expression` decoding engine
(`unmarshalExpression`, `unmarshalExpressionBlocks`, and the plain
`encoding/json` struct decoding of `Expression`), the default
`encoding/json` encoding of `Expression`, the `Config.Validate` gate, and
the `ConfigResource.UnmarshalJSON` method.

Modelling conventions:

* JSON text is modelled as the parse tree `Json` (a byte sequence that is
  not valid JSON is modelled as `Option.none` where it matters).
* Go's `map[string]T` is modelled as a *canonical* association list:
  strictly sorted by key, so that two maps are `reflect.DeepEqual` iff the
  canonical lists are equal.  Go builds such a map from JSON object fields
  in wire order with later duplicate keys overwriting earlier ones
  (`mapOfList`).  Go marshals a map in sorted key order, which is exactly
  the order of the canonical list.  Go's `nil` map and empty map are
  conflated (no claim below distinguishes them); `nil` slices are *not*
  conflated with empty slices (`Option` marks presence), because the
  `omitempty` encoding behaviour depends on it.
* JSON numbers are carried as exact rationals.  Go decodes numbers in
  dynamically-typed positions into `float64`; that rounding is abstracted
  as exact here (IEEE-754 `float64` rounding semantics are outside this
  embedding).
* Go map iteration order is randomized; it is modelled as canonical
  (sorted) order.  This affects only *which* error is returned when
  several fields are malformed, never whether an error occurs nor any
  successfully decoded value.
-/

set_option linter.unusedVariables false
set_option linter.unnecessarySimpa false
set_option linter.unusedTactic false
set_option linter.unnecessarySeqFocus false

namespace TfJson

/-! ## Canonical string-keyed maps (Go `map[string]T` up to `reflect.DeepEqual`) -/

/-- A Go `map[string]α`, represented canonically: an association list whose
keys are strictly increasing.  All maps constructed below are built with
`mapInsert` / `mapOfList` and therefore canonical by construction. -/
abbrev GoMap (α : Type) := List (String × α)

/-- Insert (or overwrite) a key/value pair, keeping the list sorted by key.
Models Go's `m[k] = v`. -/
def mapInsert (k : String) (v : α) : GoMap α → GoMap α
  | [] => [(k, v)]
  | (k', v') :: rest =>
    if k < k' then (k, v) :: (k', v') :: rest
    else if k = k' then (k, v) :: rest
    else (k', v') :: mapInsert k v rest

/-- Build a Go map from JSON object fields in wire order: later duplicate
keys overwrite earlier ones, exactly as `encoding/json` assigns
`m[k] = v` field by field. -/
def mapOfList (l : List (String × α)) : GoMap α :=
  l.foldl (fun m kv => mapInsert kv.1 kv.2 m) []

/-- The keys of a canonical map are strictly sorted. -/
def mapSorted (m : GoMap α) : Prop :=
  List.Chain' (fun a b : String × α => a.1 < b.1) m

theorem mem_mapInsert {k : String} {v : α} {m : GoMap α} {kv : String × α}
    (h : kv ∈ mapInsert k v m) : kv = (k, v) ∨ kv ∈ m := by
  induction m with
  | nil => simpa [mapInsert] using h
  | cons hd tl ih =>
    obtain ⟨k', v'⟩ := hd
    simp only [mapInsert] at h
    split_ifs at h with h1 h2
    · rcases List.mem_cons.mp h with h3 | h3
      · exact Or.inl h3
      · exact Or.inr h3
    · rcases List.mem_cons.mp h with h3 | h3
      · exact Or.inl h3
      · exact Or.inr (List.mem_cons_of_mem _ h3)
    · rcases List.mem_cons.mp h with h3 | h3
      · exact Or.inr (h3 ▸ List.mem_cons_self _ _)
      · rcases ih h3 with h4 | h4
        · exact Or.inl h4
        · exact Or.inr (List.mem_cons_of_mem _ h4)

theorem mem_foldl_mapInsert {kv : String × α} :
    ∀ (l : List (String × α)) (acc : GoMap α),
      kv ∈ l.foldl (fun m p => mapInsert p.1 p.2 m) acc → kv ∈ acc ∨ kv ∈ l := by
  intro l
  induction l with
  | nil => intro acc h; exact Or.inl h
  | cons hd tl ih =>
    intro acc h
    rcases ih (mapInsert hd.1 hd.2 acc) h with h' | h'
    · rcases mem_mapInsert h' with h3 | h3
      · exact Or.inr (by simp [h3])
      · exact Or.inl h3
    · exact Or.inr (List.mem_cons_of_mem _ h')

theorem mem_mapOfList {l : List (String × α)} {kv : String × α}
    (h : kv ∈ mapOfList l) : kv ∈ l := by
  rcases mem_foldl_mapInsert l [] h with h' | h'
  · simp at h'
  · exact h'

theorem sizeOf_mapInsert (k : String) (v : α) [SizeOf α] (m : GoMap α) :
    sizeOf (mapInsert k v m) ≤ 2 + sizeOf k + sizeOf v + sizeOf m := by
  induction m with
  | nil =>
    simp only [mapInsert, List.cons.sizeOf_spec, List.nil.sizeOf_spec, Prod.mk.sizeOf_spec]
    omega
  | cons hd tl ih =>
    obtain ⟨k', v'⟩ := hd
    simp only [mapInsert]
    split_ifs with h1 h2
    · simp only [List.cons.sizeOf_spec, Prod.mk.sizeOf_spec]
      omega
    · simp only [List.cons.sizeOf_spec, Prod.mk.sizeOf_spec]
      omega
    · simp only [List.cons.sizeOf_spec, Prod.mk.sizeOf_spec] at ih ⊢
      omega

theorem sizeOf_foldl_mapInsert [SizeOf α] :
    ∀ (l : List (String × α)) (acc : GoMap α),
      sizeOf (l.foldl (fun m p => mapInsert p.1 p.2 m) acc) + 1 ≤ sizeOf acc + sizeOf l := by
  intro l
  induction l with
  | nil =>
    intro acc
    simp only [List.foldl_nil, List.nil.sizeOf_spec]
    omega
  | cons hd tl ih =>
    intro acc
    have h1 := ih (mapInsert hd.1 hd.2 acc)
    have h2 := sizeOf_mapInsert hd.1 hd.2 acc
    obtain ⟨k, v⟩ := hd
    simp only [List.foldl_cons] at h1 ⊢
    simp only [List.cons.sizeOf_spec, Prod.mk.sizeOf_spec] at h1 h2 ⊢
    omega

theorem sizeOf_mapOfList [SizeOf α] (l : List (String × α)) :
    sizeOf (mapOfList l) ≤ sizeOf l := by
  have h := sizeOf_foldl_mapInsert l ([] : GoMap α)
  simp only [mapOfList] at h ⊢
  simp only [List.nil.sizeOf_spec] at h
  omega

/-! ## JSON parse trees -/

/-- A parsed JSON document.  Object fields are kept in wire order and may
contain duplicate keys (Go's decoder resolves duplicates last-wins when it
builds a map). -/
inductive Json where
  | null : Json
  | bool (b : Bool) : Json
  | num (q : ℚ) : Json
  | str (s : String) : Json
  | arr (elems : List Json) : Json
  | obj (fields : List (String × Json)) : Json

theorem sizeOf_mem_list {α} [SizeOf α] {x : α} {l : List α} (h : x ∈ l) :
    sizeOf x < sizeOf l := List.sizeOf_lt_of_mem h

theorem sizeOf_snd_mem_fields {v : Json} {k : String} {fields : List (String × Json)}
    (h : (k, v) ∈ fields) : sizeOf v < sizeOf fields := by
  have h1 : sizeOf (k, v) ≤ sizeOf fields := le_of_lt (List.sizeOf_lt_of_mem h)
  simp at h1
  omega

theorem sizeOf_val_lt_obj {v : Json} {k : String} {fields : List (String × Json)}
    (h : (k, v) ∈ fields) : sizeOf v < sizeOf (Json.obj fields) := by
  have := sizeOf_snd_mem_fields h
  simp
  omega

theorem sizeOf_elem_lt_arr {e : Json} {elems : List Json} (h : e ∈ elems) :
    sizeOf e < sizeOf (Json.arr elems) := by
  have := List.sizeOf_lt_of_mem h
  simp
  omega

/-! ## Sorted-map lemmas (canonical maps are stable under rebuild) -/

/-- Well-formedness of a canonical map: keys strictly increasing. -/
def mapWF (m : GoMap α) : Prop :=
  List.Pairwise (fun a b : String × α => a.1 < b.1) m

theorem mapWF_nil : mapWF ([] : GoMap α) := List.Pairwise.nil

theorem mapWF_mapInsert {k : String} {v : α} {m : GoMap α}
    (h : mapWF m) : mapWF (mapInsert k v m) := by
  induction m with
  | nil => simpa [mapInsert, mapWF] using List.pairwise_singleton _ _
  | cons hd tl ih =>
    obtain ⟨k', v'⟩ := hd
    rcases List.pairwise_cons.mp h with ⟨hlt, htl⟩
    simp only [mapInsert]
    split_ifs with h1 h2
    · refine List.pairwise_cons.mpr ⟨?_, h⟩
      intro b hb
      rcases List.mem_cons.mp hb with hb | hb
      · rw [hb]
        exact h1
      · exact lt_trans h1 (hlt b hb)
    · refine List.pairwise_cons.mpr ⟨?_, htl⟩
      intro b hb
      exact h2 ▸ hlt b hb
    · refine List.pairwise_cons.mpr ⟨?_, ih htl⟩
      intro b hb
      rcases mem_mapInsert hb with hb | hb
      · have hk : k' < k := by
          rcases lt_trichotomy k k' with h3 | h3 | h3
          · exact absurd h3 h1
          · exact absurd h3 h2
          · exact h3
        simpa [hb] using hk
      · exact hlt b hb

theorem mapWF_foldl_mapInsert :
    ∀ (l : List (String × α)) (acc : GoMap α), mapWF acc →
      mapWF (l.foldl (fun m p => mapInsert p.1 p.2 m) acc) := by
  intro l
  induction l with
  | nil => intro acc h; exact h
  | cons hd tl ih => intro acc h; exact ih _ (mapWF_mapInsert h)

theorem mapWF_mapOfList (l : List (String × α)) : mapWF (mapOfList l) :=
  mapWF_foldl_mapInsert l [] mapWF_nil

theorem mapInsert_append {k : String} {v : α} {m : GoMap α}
    (h : ∀ kv ∈ m, kv.1 < k) : mapInsert k v m = m ++ [(k, v)] := by
  induction m with
  | nil => simp [mapInsert]
  | cons hd tl ih =>
    obtain ⟨k', v'⟩ := hd
    have hk : k' < k := h (k', v') (List.mem_cons_self _ _)
    simp only [mapInsert]
    rw [if_neg (by exact fun hlt => absurd hlt (not_lt_of_gt hk)),
        if_neg (by exact fun he => absurd (he ▸ hk) (lt_irrefl k))]
    rw [ih (fun kv hkv => h kv (List.mem_cons_of_mem _ hkv))]
    simp

theorem foldl_mapInsert_sorted :
    ∀ (l : List (String × α)) (acc : GoMap α),
      mapWF l → (∀ a ∈ acc, ∀ b ∈ l, a.1 < b.1) →
      l.foldl (fun m p => mapInsert p.1 p.2 m) acc = acc ++ l := by
  intro l
  induction l with
  | nil => intro acc _ _; simp
  | cons hd tl ih =>
    intro acc hwf hacc
    obtain ⟨k, v⟩ := hd
    rcases List.pairwise_cons.mp hwf with ⟨hlt, htl⟩
    simp only [List.foldl_cons]
    have hins : mapInsert k v acc = acc ++ [(k, v)] :=
      mapInsert_append (fun kv hkv => hacc kv hkv (k, v) (List.mem_cons_self _ _))
    rw [hins, ih (acc ++ [(k, v)]) htl ?_]
    · simp
    · intro a ha b hb
      rcases List.mem_append.mp ha with ha | ha
      · exact hacc a ha b (List.mem_cons_of_mem _ hb)
      · simp at ha
        exact ha ▸ hlt b hb

/-- Rebuilding an already-canonical map is the identity: the decoder's
`mapOfList` applied to the sorted key order that the encoder emits
reproduces the original map. -/
theorem mapOfList_wf_id {l : GoMap α} (h : mapWF l) : mapOfList l = l := by
  have := foldl_mapInsert_sorted l [] h (by intro a ha; simp at ha)
  simpa [mapOfList] using this

theorem mapWF_of_keys_eq {m : GoMap α} {m' : GoMap β}
    (hk : m.map Prod.fst = m'.map Prod.fst) (h : mapWF m) : mapWF m' := by
  have h1 : (m.map Prod.fst).Pairwise (fun a b : String => a < b) :=
    (List.pairwise_map).mpr h
  rw [hk] at h1
  exact (List.pairwise_map).mp h1

/-! ## The dynamic value model: Go `interface{}` values produced by `encoding/json`

The `tfjson` package stores schemaless values (`Expression.ConstantValue`,
`Resource.AttributeValues`, ...) as plain `interface{}`; `encoding/json`
decodes a JSON value into `nil`, `bool`, `float64`, `string`,
`[]interface{}` or `map[string]interface{}`.  The `float64` rounding of
numbers is abstracted as the exact rational. -/

inductive GoValue where
  | null : GoValue
  | bool (b : Bool) : GoValue
  | num (q : ℚ) : GoValue
  | str (s : String) : GoValue
  | arr (elems : List GoValue) : GoValue
  | obj (fields : List (String × GoValue)) : GoValue

mutual

/-- `json.Unmarshal` of a (valid) JSON value into a Go `interface{}`.
This never fails: every JSON shape has an `interface{}` representation.
Objects become maps built field-by-field in wire order (duplicates
last-wins), here in canonical form. -/
def goUnmarshalValue : Json → GoValue
  | .null => .null
  | .bool b => .bool b
  | .num q => .num q
  | .str s => .str s
  | .arr elems => .arr (goUnmarshalValues elems)
  | .obj fields => .obj (mapOfList (goUnmarshalFields fields))

def goUnmarshalValues : List Json → List GoValue
  | [] => []
  | e :: rest => goUnmarshalValue e :: goUnmarshalValues rest

def goUnmarshalFields : List (String × Json) → List (String × GoValue)
  | [] => []
  | (k, v) :: rest => (k, goUnmarshalValue v) :: goUnmarshalFields rest

end

mutual

/-- `json.Marshal` of a Go `interface{}` value: maps are emitted in sorted
key order (which is the canonical list order). -/
def encodeGoValue : GoValue → Json
  | .null => .null
  | .bool b => .bool b
  | .num q => .num q
  | .str s => .str s
  | .arr elems => .arr (encodeGoValues elems)
  | .obj fields => .obj (encodeGoFields fields)

def encodeGoValues : List GoValue → List Json
  | [] => []
  | v :: rest => encodeGoValue v :: encodeGoValues rest

def encodeGoFields : List (String × GoValue) → List (String × Json)
  | [] => []
  | (k, v) :: rest => (k, encodeGoValue v) :: encodeGoFields rest

end

mutual

/-- Invariant satisfied by every `GoValue` that `goUnmarshalValue`
produces: all maps are canonical (keys strictly sorted). -/
def goValueWF : GoValue → Prop
  | .null => True
  | .bool _ => True
  | .num _ => True
  | .str _ => True
  | .arr elems => goValuesWF elems
  | .obj fields => mapWF fields ∧ goFieldsWF fields

def goValuesWF : List GoValue → Prop
  | [] => True
  | v :: rest => goValueWF v ∧ goValuesWF rest

def goFieldsWF : List (String × GoValue) → Prop
  | [] => True
  | (_, v) :: rest => goValueWF v ∧ goFieldsWF rest

end

/-! ## The `Expression` type (config.go:217-232)

```go
type Expression struct {
    ConstantValue interface{} `json:"constant_value,omitempty"`
    References    []string    `json:"references,omitempty"`
    NestedBlocks  []map[string]Expression
}
```

`ConstantValue` is an `interface{}`: the nil interface — left by an absent
member and by a JSON `null` alike — is `GoValue.null`, which is exactly
the value `omitempty` omits.  For the two slices, `Option` distinguishes
Go's nil slice (`none`) from a present, possibly empty one (`some`),
which `omitempty` and `reflect.DeepEqual` depend on. -/

inductive Expression where
  | mk (constantValue : GoValue) (references : Option (List String))
      (nestedBlocks : Option (List (List (String × Expression)))) : Expression

def Expression.constantValue : Expression → GoValue
  | .mk cv _ _ => cv

def Expression.references : Expression → Option (List String)
  | .mk _ r _ => r

def Expression.nestedBlocks : Expression → Option (List (GoMap Expression))
  | .mk _ _ nb => nb

/-- The zero value `Expression{}`. -/
def Expression.zero : Expression := .mk .null none none

/-- The nested block list, reading Go's nil slice as empty. -/
def Expression.blocksOrNil (e : Expression) : List (GoMap Expression) :=
  e.nestedBlocks.getD []

/-- Errors surfaced by `encoding/json` during decoding.  The exact message
text is irrelevant to every claim; only *that* an error occurs matters. -/
inductive GoErr where
  | syntaxError : GoErr
  | cannotUnmarshal (goType : String) : GoErr
deriving DecidableEq

/-! ## Plain struct decoding of `Expression`

`Expression` has no custom `UnmarshalJSON`, so `json.Unmarshal(raw, &result)`
(config.go:145) uses the reflective struct decoder:

* `null` is a no-op on a struct (the zero value remains);
* an object's keys are matched against the member names `constant_value`
  (tag), `references` (tag) and `NestedBlocks` (untagged field name),
  exact match first and case-insensitive otherwise (Go uses
  `strings.EqualFold`; modelled with `String.toLower`, which agrees on
  every name the claims exercise); unknown keys are ignored;
* any other JSON kind is an `UnmarshalTypeError`.

Go saves the first error and keeps scanning; because the only caller
(`unmarshalExpression`, config.go:145-147) discards the partially decoded
value on error, aborting at the first error is result-equivalent, and the
deterministic field order used here can change only which error is
reported, never whether one is. -/

/-- Which struct member a JSON object key selects. -/
inductive ExprField where
  | constantValue : ExprField
  | references : ExprField
  | nestedBlocks : ExprField

def exprFieldOf (k : String) : Option ExprField :=
  if k = "constant_value" then some .constantValue
  else if k = "references" then some .references
  else if k = "NestedBlocks" then some .nestedBlocks
  else if k.toLower = "constant_value" then some .constantValue
  else if k.toLower = "references" then some .references
  else if k.toLower = "nestedblocks" then some .nestedBlocks
  else none

/-- Decoding one element of a `[]string`: a JSON `null` element leaves the
zero value `""` in place (Go ignores `null` for non-nullable kinds). -/
def decodeStringElem : Json → Except GoErr String
  | .str s => .ok s
  | .null => .ok ""
  | _ => .error (.cannotUnmarshal "string")

def decodeStringList : List Json → Except GoErr (List String)
  | [] => .ok []
  | e :: rest =>
    match decodeStringElem e with
    | .error er => .error er
    | .ok s =>
      match decodeStringList rest with
      | .error er => .error er
      | .ok l => .ok (s :: l)

mutual

def unmarshalExpressionStruct : Json → Except GoErr Expression
  | .null => .ok Expression.zero
  | .obj fields => exprStructFields Expression.zero fields
  | .bool _ => .error (.cannotUnmarshal "bool")
  | .num _ => .error (.cannotUnmarshal "number")
  | .str _ => .error (.cannotUnmarshal "string")
  | .arr _ => .error (.cannotUnmarshal "array")
termination_by j => sizeOf j
decreasing_by all_goals (simp_wf; try omega)

/-- Decode a `references` member: `null` resets the slice to nil, an array
must be all strings (a `null` element leaves `""`), anything else is a
type error. -/
def decodeRefsValue : Json → Except GoErr (Option (List String))
  | .null => .ok none
  | .arr elems =>
    match decodeStringList elems with
    | .error er => .error er
    | .ok refs => .ok (some refs)
  | _ => .error (.cannotUnmarshal "slice")

/-- Fold an object's fields, in wire order, into the `Expression` struct
(later duplicates overwrite earlier ones, as in Go). -/
def exprStructFields : Expression → List (String × Json) → Except GoErr Expression
  | acc, [] => .ok acc
  | acc, (k, v) :: rest =>
    match exprFieldOf k with
    | none => exprStructFields acc rest
    | some .constantValue =>
      exprStructFields (.mk (goUnmarshalValue v) acc.references acc.nestedBlocks) rest
    | some .references =>
      match decodeRefsValue v with
      | .error er => .error er
      | .ok refs => exprStructFields (.mk acc.constantValue refs acc.nestedBlocks) rest
    | some .nestedBlocks =>
      match decodeNBValue v with
      | .error er => .error er
      | .ok nb => exprStructFields (.mk acc.constantValue acc.references nb) rest
termination_by acc fields => sizeOf fields
decreasing_by all_goals (simp_wf; try omega)

/-- Decode a `NestedBlocks` member: `null` leaves the nil slice, an array
decodes element-wise into `map[string]Expression`. -/
def decodeNBValue : Json → Except GoErr (Option (List (GoMap Expression)))
  | .null => .ok none
  | .arr elems =>
    match decodeNBElems elems with
    | .error er => .error er
    | .ok blocks => .ok (some blocks)
  | _ => .error (.cannotUnmarshal "slice")
termination_by v => sizeOf v
decreasing_by all_goals (simp_wf; try omega)

def decodeNBElems : List Json → Except GoErr (List (GoMap Expression))
  | [] => .ok []
  | .null :: rest =>
    match decodeNBElems rest with
    | .error er => .error er
    | .ok bs => .ok ([] :: bs)
  | .obj bf :: rest =>
    match decodeNBPairs (mapOfList bf) with
    | .error er => .error er
    | .ok block =>
      match decodeNBElems rest with
      | .error er => .error er
      | .ok bs => .ok (block :: bs)
  | _ :: _ => .error (.cannotUnmarshal "map")
termination_by elems => sizeOf elems
decreasing_by
  all_goals simp_wf
  all_goals try omega
  all_goals (have hm := sizeOf_mapOfList bf; omega)

/-- Decode the canonical raw fields of one `map[string]Expression` entry:
each value goes through the plain struct decoder (NOT through
`unmarshalExpression` — nested-block dispatch happens only at the point
where `unmarshalExpression` is called). -/
def decodeNBPairs : List (String × Json) → Except GoErr (GoMap Expression)
  | [] => .ok []
  | (k, v) :: rest =>
    match unmarshalExpressionStruct v with
    | .error er => .error er
    | .ok ex =>
      match decodeNBPairs rest with
      | .error er => .error er
      | .ok m => .ok ((k, ex) :: m)
termination_by pairs => sizeOf pairs
decreasing_by all_goals (simp_wf; try omega)

end

/-! ## The source decoder: `unmarshalExpression` (config.go:136-150) and
`unmarshalExpressionBlocks` (config.go:152-170)

`unmarshalExpression` first tries `json.Unmarshal` into
`[]map[string]json.RawMessage`.  That succeeds exactly when the raw value
is `null` (a no-op that leaves the nil slice) or an array whose elements
are each an object or `null`; then `unmarshalExpressionBlocks` appends one
block per element, decoding every retained (last-wins) field value with
`unmarshalExpression` recursively.  Otherwise the raw value is decoded as
an `Expression` struct. -/

def isObjOrNull : Json → Bool
  | .null => true
  | .obj _ => true
  | _ => false

/-- The `map[string]json.RawMessage` a block element decodes to (`null`
gives the nil map).  Only reached for elements that `isObjOrNull`
admits. -/
def blockFieldsOf : Json → List (String × Json)
  | .obj bf => mapOfList bf
  | _ => []

theorem sizeOf_blockFieldsOf (e : Json) : sizeOf (blockFieldsOf e) ≤ sizeOf e := by
  cases e with
  | obj bf =>
    have := sizeOf_mapOfList bf
    simp [blockFieldsOf]
    omega
  | null => simp [blockFieldsOf]
  | bool b => simp [blockFieldsOf]
  | num q => simp [blockFieldsOf]
  | str s => simp [blockFieldsOf]
  | arr elems => simp [blockFieldsOf]

mutual

/-- config.go:136-150. -/
def unmarshalExpression : Json → Except GoErr Expression
  | .null => .ok Expression.zero
  | .arr elems =>
    if elems.all isObjOrNull then
      match unmarshalExpressionBlocks elems with
      | .error er => .error er
      | .ok blocks =>
        .ok (.mk .null none (if blocks.isEmpty then none else some blocks))
    else
      unmarshalExpressionStruct (.arr elems)
  | .bool b => unmarshalExpressionStruct (.bool b)
  | .num q => unmarshalExpressionStruct (.num q)
  | .str s => unmarshalExpressionStruct (.str s)
  | .obj fields => unmarshalExpressionStruct (.obj fields)
termination_by raw => sizeOf raw
decreasing_by all_goals (simp_wf; try omega)

/-- config.go:152-170: `unmarshalExpressionBlocks`, with its
`[]map[string]json.RawMessage` argument taken as the raw array elements
(each converted by `blockFieldsOf` at use, fusing the two steps).
Each element contributes exactly one block (a `null` element is a nil map,
hence an empty block), and `result.NestedBlocks` is the `append` of the
blocks in order (nil — `none` — when there are no elements). -/
def unmarshalExpressionBlocks : List Json → Except GoErr (List (GoMap Expression))
  | [] => .ok []
  | e :: rest =>
    match unmarshalBlockPairs (blockFieldsOf e) with
    | .error er => .error er
    | .ok block =>
      match unmarshalExpressionBlocks rest with
      | .error er => .error er
      | .ok bs => .ok (block :: bs)
termination_by elems => sizeOf elems
decreasing_by
  all_goals simp_wf
  all_goals try omega
  all_goals (have hb := sizeOf_blockFieldsOf e; omega)

/-- Decode one raw block: every retained field value goes back through
`unmarshalExpression` (config.go:158). -/
def unmarshalBlockPairs : List (String × Json) → Except GoErr (GoMap Expression)
  | [] => .ok []
  | (k, v) :: rest =>
    match unmarshalExpression v with
    | .error er => .error er
    | .ok ex =>
      match unmarshalBlockPairs rest with
      | .error er => .error er
      | .ok m => .ok ((k, ex) :: m)
termination_by pairs => sizeOf pairs
decreasing_by all_goals (simp_wf; try omega)

end

/-! ## Default encoding of `Expression`

The source defines no `MarshalJSON` for `Expression`, so `json.Marshal`
uses the reflective struct encoder: members in declaration order;
`constant_value` omitted when the interface is nil; `references` omitted
when the slice is nil or empty (`omitempty`); `NestedBlocks` — untagged,
no `omitempty` — always present under the Go field name, a nil slice
encoding as `null` and blocks as an array of objects in sorted key
order. -/

mutual

def marshalExpression : Expression → Json
  | .mk cv refs nb =>
    .obj ((match cv with
           | .null => []
           | v => [("constant_value", encodeGoValue v)]) ++
          (match refs with
           | none => []
           | some [] => []
           | some l => [("references", .arr (l.map .str))]) ++
          [("NestedBlocks", marshalNB nb)])
termination_by e => sizeOf e
decreasing_by all_goals (simp_wf; try omega)

def marshalNB : Option (List (GoMap Expression)) → Json
  | none => .null
  | some blocks => .arr (marshalBlocks blocks)
termination_by nb => sizeOf nb
decreasing_by all_goals (simp_wf; try omega)

def marshalBlocks : List (GoMap Expression) → List Json
  | [] => []
  | b :: rest => .obj (marshalBlockPairs b) :: marshalBlocks rest
termination_by blocks => sizeOf blocks
decreasing_by all_goals (simp_wf; try omega)

def marshalBlockPairs : GoMap Expression → List (String × Json)
  | [] => []
  | (k, e) :: rest => (k, marshalExpression e) :: marshalBlockPairs rest
termination_by pairs => sizeOf pairs
decreasing_by all_goals (simp_wf; try omega)

end

/-! ## Invariants of decoded values and expressions -/

theorem goValuesWF_iff : ∀ l : List GoValue, goValuesWF l ↔ ∀ v ∈ l, goValueWF v := by
  intro l
  induction l with
  | nil => simp [goValuesWF]
  | cons v rest ih =>
    simp only [goValuesWF, ih, List.mem_cons]
    constructor
    · rintro ⟨h1, h2⟩ w (rfl | hw)
      · exact h1
      · exact h2 w hw
    · intro h
      exact ⟨h v (Or.inl rfl), fun w hw => h w (Or.inr hw)⟩

theorem goFieldsWF_iff : ∀ l : List (String × GoValue), goFieldsWF l ↔ ∀ kv ∈ l, goValueWF kv.2 := by
  intro l
  induction l with
  | nil => simp [goFieldsWF]
  | cons kv rest ih =>
    obtain ⟨k, v⟩ := kv
    simp only [goFieldsWF, ih, List.mem_cons]
    constructor
    · rintro ⟨h1, h2⟩ w (rfl | hw)
      · exact h1
      · exact h2 w hw
    · intro h
      exact ⟨h (k, v) (Or.inl rfl), fun w hw => h w (Or.inr hw)⟩

mutual

/-- Every value `goUnmarshalValue` produces has canonical maps throughout. -/
theorem goUnmarshalValue_wf : (j : Json) → goValueWF (goUnmarshalValue j)
  | .null => by simp [goUnmarshalValue, goValueWF]
  | .bool b => by simp [goUnmarshalValue, goValueWF]
  | .num q => by simp [goUnmarshalValue, goValueWF]
  | .str s => by simp [goUnmarshalValue, goValueWF]
  | .arr elems => by
    have h := goUnmarshalValues_wf elems
    simpa [goUnmarshalValue, goValueWF] using h
  | .obj fields => by
    have h := goUnmarshalFields_wf fields
    simp only [goUnmarshalValue, goValueWF]
    refine ⟨mapWF_mapOfList _, ?_⟩
    rw [goFieldsWF_iff] at h ⊢
    intro kv hkv
    exact h kv (mem_mapOfList hkv)
termination_by j => sizeOf j
decreasing_by all_goals (simp_wf; try omega)

theorem goUnmarshalValues_wf : (l : List Json) → goValuesWF (goUnmarshalValues l)
  | [] => by simp [goUnmarshalValues, goValuesWF]
  | e :: rest => by
    have h1 := goUnmarshalValue_wf e
    have h2 := goUnmarshalValues_wf rest
    simp only [goUnmarshalValues, goValuesWF]
    exact ⟨h1, h2⟩
termination_by l => sizeOf l
decreasing_by all_goals (simp_wf; try omega)

theorem goUnmarshalFields_wf : (l : List (String × Json)) → goFieldsWF (goUnmarshalFields l)
  | [] => by simp [goUnmarshalFields, goFieldsWF]
  | (k, v) :: rest => by
    have h1 := goUnmarshalValue_wf v
    have h2 := goUnmarshalFields_wf rest
    simp only [goUnmarshalFields, goFieldsWF]
    exact ⟨h1, h2⟩
termination_by l => sizeOf l
decreasing_by all_goals (simp_wf; try omega)

end

mutual

/-- Encoding then decoding an `interface{}` value is the identity on
well-formed values. -/
theorem encode_decode_value : (v : GoValue) → goValueWF v →
    goUnmarshalValue (encodeGoValue v) = v
  | .null, _ => by simp [encodeGoValue, goUnmarshalValue]
  | .bool b, _ => by simp [encodeGoValue, goUnmarshalValue]
  | .num q, _ => by simp [encodeGoValue, goUnmarshalValue]
  | .str s, _ => by simp [encodeGoValue, goUnmarshalValue]
  | .arr elems, h => by
    have h' : goValuesWF elems := by simpa [goValueWF] using h
    have hrec := encode_decode_values elems h'
    simp [encodeGoValue, goUnmarshalValue, hrec]
  | .obj m, h => by
    have h' : mapWF m ∧ goFieldsWF m := by simpa [goValueWF] using h
    have hrec := encode_decode_fields m h'.2
    simp [encodeGoValue, goUnmarshalValue, hrec, mapOfList_wf_id h'.1]
termination_by v _ => sizeOf v
decreasing_by all_goals (simp_wf; try omega)

theorem encode_decode_values : (l : List GoValue) → goValuesWF l →
    goUnmarshalValues (encodeGoValues l) = l
  | [], _ => by simp [encodeGoValues, goUnmarshalValues]
  | v :: rest, h => by
    have h' : goValueWF v ∧ goValuesWF rest := by simpa [goValuesWF] using h
    have h1 := encode_decode_value v h'.1
    have h2 := encode_decode_values rest h'.2
    simp [encodeGoValues, goUnmarshalValues, h1, h2]
termination_by l _ => sizeOf l
decreasing_by all_goals (simp_wf; try omega)

theorem encode_decode_fields : (m : List (String × GoValue)) → goFieldsWF m →
    goUnmarshalFields (encodeGoFields m) = m
  | [], _ => by simp [encodeGoFields, goUnmarshalFields]
  | (k, v) :: rest, h => by
    have h' : goValueWF v ∧ goFieldsWF rest := by simpa [goFieldsWF] using h
    have h1 := encode_decode_value v h'.1
    have h2 := encode_decode_fields rest h'.2
    simp [encodeGoFields, goUnmarshalFields, h1, h2]
termination_by m _ => sizeOf m
decreasing_by all_goals (simp_wf; try omega)

end

mutual

/-- Invariant of every decoded `Expression`: the constant value is
well-formed and every nested block is a canonical map of well-formed
expressions. -/
def exprWF : Expression → Prop
  | .mk cv _ nb => goValueWF cv ∧ exprNBWF nb
termination_by e => sizeOf e
decreasing_by all_goals (simp_wf; try omega)

def exprNBWF : Option (List (List (String × Expression))) → Prop
  | none => True
  | some blocks => exprBlocksWF blocks
termination_by nb => sizeOf nb
decreasing_by all_goals (simp_wf; try omega)

def exprBlocksWF : List (List (String × Expression)) → Prop
  | [] => True
  | b :: rest => (mapWF b ∧ exprPairsWF b) ∧ exprBlocksWF rest
termination_by blocks => sizeOf blocks
decreasing_by all_goals (simp_wf; try omega)

def exprPairsWF : List (String × Expression) → Prop
  | [] => True
  | (_, e) :: rest => exprWF e ∧ exprPairsWF rest
termination_by pairs => sizeOf pairs
decreasing_by all_goals (simp_wf; try omega)

end

mutual

/-- `References` is nowhere a present-but-empty slice.  A present empty
slice survives decoding but is dropped by `omitempty` on encoding, which
is the one way a decoded `Expression` fails to round-trip. -/
def noEmptyRefs : Expression → Prop
  | .mk _ refs nb => refs ≠ some [] ∧ noEmptyRefsNB nb
termination_by e => sizeOf e
decreasing_by all_goals (simp_wf; try omega)

def noEmptyRefsNB : Option (List (List (String × Expression))) → Prop
  | none => True
  | some blocks => noEmptyRefsBlocks blocks
termination_by nb => sizeOf nb
decreasing_by all_goals (simp_wf; try omega)

def noEmptyRefsBlocks : List (List (String × Expression)) → Prop
  | [] => True
  | b :: rest => noEmptyRefsPairs b ∧ noEmptyRefsBlocks rest
termination_by blocks => sizeOf blocks
decreasing_by all_goals (simp_wf; try omega)

def noEmptyRefsPairs : List (String × Expression) → Prop
  | [] => True
  | (_, e) :: rest => noEmptyRefs e ∧ noEmptyRefsPairs rest
termination_by pairs => sizeOf pairs
decreasing_by all_goals (simp_wf; try omega)

end

theorem exprWF_zero : exprWF Expression.zero := by
  simp [Expression.zero, exprWF, goValueWF, exprNBWF]

theorem mapWF_blockFieldsOf (e : Json) : mapWF (blockFieldsOf e) := by
  cases e <;> simp [blockFieldsOf, mapWF_nil] <;> exact mapWF_mapOfList _

mutual

/-- Every successful plain struct decode yields a well-formed Expression. -/
theorem unmarshalExpressionStruct_wf : (j : Json) → (e : Expression) →
    unmarshalExpressionStruct j = .ok e → exprWF e
  | .null, e, h => by
    simp only [unmarshalExpressionStruct, Except.ok.injEq] at h
    exact h ▸ exprWF_zero
  | .obj fields, e, h =>
    exprStructFields_wf Expression.zero fields e exprWF_zero
      (by simpa [unmarshalExpressionStruct] using h)
  | .bool b, e, h => by simp [unmarshalExpressionStruct] at h
  | .num q, e, h => by simp [unmarshalExpressionStruct] at h
  | .str s, e, h => by simp [unmarshalExpressionStruct] at h
  | .arr elems, e, h => by simp [unmarshalExpressionStruct] at h
termination_by j _ _ => sizeOf j
decreasing_by all_goals (simp_wf; try omega)

theorem exprStructFields_wf : (acc : Expression) → (fields : List (String × Json)) →
    (e : Expression) → exprWF acc → exprStructFields acc fields = .ok e → exprWF e
  | acc, [], e, hacc, h => by
    simp only [exprStructFields, Except.ok.injEq] at h
    exact h ▸ hacc
  | acc, (k, v) :: rest, e, hacc, h => by
    obtain ⟨cv, refs, nb⟩ := acc
    have hacc' : goValueWF cv ∧ exprNBWF nb := by simpa [exprWF] using hacc
    simp only [exprStructFields] at h
    split at h
    · exact exprStructFields_wf _ rest e (by simpa [exprWF] using hacc') h
    · refine exprStructFields_wf _ rest e ?_ h
      simp only [Expression.references, Expression.nestedBlocks, exprWF]
      exact ⟨goUnmarshalValue_wf v, hacc'.2⟩
    · -- references member
      split at h
      · simp at h
      · refine exprStructFields_wf _ rest e ?_ h
        simp only [Expression.constantValue, Expression.nestedBlocks, exprWF]
        exact ⟨hacc'.1, hacc'.2⟩
    · -- NestedBlocks member
      split at h
      · simp at h
      · rename_i nb' hnb'
        refine exprStructFields_wf _ rest e ?_ h
        simp only [Expression.constantValue, Expression.references, exprWF]
        exact ⟨hacc'.1, decodeNBValue_wf v nb' hnb'⟩
termination_by acc fields _ _ _ => sizeOf fields
decreasing_by all_goals (simp_wf; try omega)

theorem decodeNBValue_wf : (v : Json) → (nb : Option (List (GoMap Expression))) →
    decodeNBValue v = .ok nb → exprNBWF nb
  | .null, nb, h => by
    simp only [decodeNBValue, Except.ok.injEq] at h
    simp [← h, exprNBWF]
  | .arr elems, nb, h => by
    simp only [decodeNBValue] at h
    split at h
    · simp at h
    · rename_i blocks hblocks
      simp only [Except.ok.injEq] at h
      have := decodeNBElems_wf elems blocks hblocks
      simpa [← h, exprNBWF] using this
  | .bool b, nb, h => by simp [decodeNBValue] at h
  | .num q, nb, h => by simp [decodeNBValue] at h
  | .str s, nb, h => by simp [decodeNBValue] at h
  | .obj fields, nb, h => by simp [decodeNBValue] at h
termination_by v _ _ => sizeOf v
decreasing_by all_goals (simp_wf; try omega)

theorem decodeNBElems_wf : (elems : List Json) → (bs : List (GoMap Expression)) →
    decodeNBElems elems = .ok bs → exprBlocksWF bs
  | [], bs, h => by
    simp only [decodeNBElems, Except.ok.injEq] at h
    simp [← h, exprBlocksWF]
  | .null :: rest, bs, h => by
    simp only [decodeNBElems] at h
    split at h
    · simp at h
    · rename_i bs' hbs'
      simp only [Except.ok.injEq] at h
      have := decodeNBElems_wf rest bs' hbs'
      simp only [← h, exprBlocksWF]
      exact ⟨⟨mapWF_nil, by simp [exprPairsWF]⟩, this⟩
  | .obj bf :: rest, bs, h => by
    simp only [decodeNBElems] at h
    split at h
    · simp at h
    · rename_i block hblock
      split at h
      · simp at h
      · rename_i bs' hbs'
        simp only [Except.ok.injEq] at h
        have hp := decodeNBPairs_wf (mapOfList bf) block hblock
        have hr := decodeNBElems_wf rest bs' hbs'
        simp only [← h, exprBlocksWF]
        refine ⟨⟨?_, hp.2⟩, hr⟩
        exact mapWF_of_keys_eq hp.1.symm (mapWF_mapOfList bf)
  | .bool b :: rest, bs, h => by simp [decodeNBElems] at h
  | .num q :: rest, bs, h => by simp [decodeNBElems] at h
  | .str s :: rest, bs, h => by simp [decodeNBElems] at h
  | .arr elems' :: rest, bs, h => by simp [decodeNBElems] at h
termination_by elems _ _ => sizeOf elems
decreasing_by
  all_goals simp_wf
  all_goals try omega
  all_goals (have hm := sizeOf_mapOfList bf; omega)

theorem decodeNBPairs_wf : (pairs : List (String × Json)) → (m : GoMap Expression) →
    decodeNBPairs pairs = .ok m → m.map Prod.fst = pairs.map Prod.fst ∧ exprPairsWF m
  | [], m, h => by
    simp only [decodeNBPairs, Except.ok.injEq] at h
    simp [← h, exprPairsWF]
  | (k, v) :: rest, m, h => by
    simp only [decodeNBPairs] at h
    split at h
    · simp at h
    · rename_i ex hex
      split at h
      · simp at h
      · rename_i m' hm'
        simp only [Except.ok.injEq] at h
        have h1 := unmarshalExpressionStruct_wf v ex hex
        have h2 := decodeNBPairs_wf rest m' hm'
        simp only [← h, List.map_cons, exprPairsWF]
        exact ⟨by rw [h2.1], h1, h2.2⟩
termination_by pairs _ _ => sizeOf pairs
decreasing_by all_goals (simp_wf; try omega)

end

mutual

/-- Every successful `unmarshalExpression` yields a well-formed
Expression. -/
theorem unmarshalExpression_wf : (j : Json) → (e : Expression) →
    unmarshalExpression j = .ok e → exprWF e
  | .null, e, h => by
    simp only [unmarshalExpression, Except.ok.injEq] at h
    exact h ▸ exprWF_zero
  | .arr elems, e, h => by
    simp only [unmarshalExpression] at h
    split at h
    · split at h
      · simp at h
      · rename_i blocks hblocks
        simp only [Except.ok.injEq] at h
        have hb := unmarshalExpressionBlocks_wf elems blocks hblocks
        simp only [← h, exprWF, goValueWF]
        refine ⟨trivial, ?_⟩
        split
        · simp [exprNBWF]
        · simpa [exprNBWF] using hb
    · exact unmarshalExpressionStruct_wf _ e h
  | .bool b, e, h => unmarshalExpressionStruct_wf _ e (by simpa [unmarshalExpression] using h)
  | .num q, e, h => unmarshalExpressionStruct_wf _ e (by simpa [unmarshalExpression] using h)
  | .str s, e, h => unmarshalExpressionStruct_wf _ e (by simpa [unmarshalExpression] using h)
  | .obj fields, e, h => unmarshalExpressionStruct_wf _ e (by simpa [unmarshalExpression] using h)
termination_by j _ _ => sizeOf j
decreasing_by all_goals (simp_wf; try omega)

theorem unmarshalExpressionBlocks_wf : (elems : List Json) → (bs : List (GoMap Expression)) →
    unmarshalExpressionBlocks elems = .ok bs → exprBlocksWF bs
  | [], bs, h => by
    simp only [unmarshalExpressionBlocks, Except.ok.injEq] at h
    simp [← h, exprBlocksWF]
  | el :: rest, bs, h => by
    simp only [unmarshalExpressionBlocks] at h
    split at h
    · simp at h
    · rename_i block hblock
      split at h
      · simp at h
      · rename_i bs' hbs'
        simp only [Except.ok.injEq] at h
        have hp := unmarshalBlockPairs_wf (blockFieldsOf el) block hblock
        have hr := unmarshalExpressionBlocks_wf rest bs' hbs'
        simp only [← h, exprBlocksWF]
        refine ⟨⟨?_, hp.2⟩, hr⟩
        exact mapWF_of_keys_eq hp.1.symm (mapWF_blockFieldsOf el)
termination_by elems _ _ => sizeOf elems
decreasing_by
  all_goals simp_wf
  all_goals try omega
  all_goals (have hb := sizeOf_blockFieldsOf el; omega)

theorem unmarshalBlockPairs_wf : (pairs : List (String × Json)) → (m : GoMap Expression) →
    unmarshalBlockPairs pairs = .ok m → m.map Prod.fst = pairs.map Prod.fst ∧ exprPairsWF m
  | [], m, h => by
    simp only [unmarshalBlockPairs, Except.ok.injEq] at h
    simp [← h, exprPairsWF]
  | (k, v) :: rest, m, h => by
    simp only [unmarshalBlockPairs] at h
    split at h
    · simp at h
    · rename_i ex hex
      split at h
      · simp at h
      · rename_i m' hm'
        simp only [Except.ok.injEq] at h
        have h1 := unmarshalExpression_wf v ex hex
        have h2 := unmarshalBlockPairs_wf rest m' hm'
        simp only [← h, List.map_cons, exprPairsWF]
        exact ⟨by rw [h2.1], h1, h2.2⟩
termination_by pairs _ _ => sizeOf pairs
decreasing_by all_goals (simp_wf; try omega)

end

/-! ## Round-trip: decoding the default encoding -/

theorem exprFieldOf_constant_value : exprFieldOf "constant_value" = some .constantValue := by
  rfl

theorem exprFieldOf_references : exprFieldOf "references" = some .references := by
  rfl

theorem exprFieldOf_NestedBlocks : exprFieldOf "NestedBlocks" = some .nestedBlocks := by
  rfl

theorem decodeStringList_map_str : ∀ l : List String, decodeStringList (l.map .str) = .ok l := by
  intro l
  induction l with
  | nil => simp [decodeStringList]
  | cons s rest ih => simp [decodeStringList, decodeStringElem, ih]

theorem decodeStringList_strs (r : String) (rs : List String) :
    decodeStringList (Json.str r :: rs.map .str) = .ok (r :: rs) := by
  simp [decodeStringList, decodeStringElem, decodeStringList_map_str rs]

theorem marshalBlockPairs_keys : ∀ b : GoMap Expression,
    (marshalBlockPairs b).map Prod.fst = b.map Prod.fst := by
  intro b
  induction b with
  | nil => simp [marshalBlockPairs]
  | cons kv rest ih =>
    obtain ⟨k, e⟩ := kv
    simp [marshalBlockPairs, ih]

mutual

/-- Struct-decoding the default encoding of a well-formed `Expression`
with no present-but-empty references recovers it exactly. -/
theorem marshal_struct_roundtrip : (e : Expression) → exprWF e → noEmptyRefs e →
    unmarshalExpressionStruct (marshalExpression e) = .ok e
  | .mk cv refs nb, hwf, href => by
    have hwf' : goValueWF cv ∧ exprNBWF nb := by simpa [exprWF] using hwf
    have href' : refs ≠ some [] ∧ noEmptyRefsNB nb := by simpa [noEmptyRefs] using href
    have hnb := marshal_nb_roundtrip nb hwf'.2 href'.2
    have hcv := encode_decode_value cv hwf'.1
    match cv, refs with
    | .null, none =>
      simp [marshalExpression, unmarshalExpressionStruct, exprStructFields,
        exprFieldOf_NestedBlocks, hnb, Expression.zero, Expression.constantValue,
        Expression.references, Expression.nestedBlocks]
    | .null, some [] => exact absurd rfl href'.1
    | .null, some (r :: rs) =>
      simp [marshalExpression, unmarshalExpressionStruct, exprStructFields,
        exprFieldOf_references, exprFieldOf_NestedBlocks, decodeRefsValue,
        decodeStringList_map_str, decodeStringList_strs, hnb, Expression.zero, Expression.constantValue,
        Expression.references, Expression.nestedBlocks]
    | .bool b, none =>
      simp [marshalExpression, unmarshalExpressionStruct, exprStructFields,
        exprFieldOf_constant_value, exprFieldOf_NestedBlocks, hcv, hnb,
        Expression.zero, Expression.constantValue, Expression.references,
        Expression.nestedBlocks]
    | .bool b, some [] => exact absurd rfl href'.1
    | .bool b, some (r :: rs) =>
      simp [marshalExpression, unmarshalExpressionStruct, exprStructFields,
        exprFieldOf_constant_value, exprFieldOf_references, exprFieldOf_NestedBlocks,
        decodeRefsValue, decodeStringList_map_str, decodeStringList_strs, hcv, hnb, Expression.zero,
        Expression.constantValue, Expression.references, Expression.nestedBlocks]
    | .num q, none =>
      simp [marshalExpression, unmarshalExpressionStruct, exprStructFields,
        exprFieldOf_constant_value, exprFieldOf_NestedBlocks, hcv, hnb,
        Expression.zero, Expression.constantValue, Expression.references,
        Expression.nestedBlocks]
    | .num q, some [] => exact absurd rfl href'.1
    | .num q, some (r :: rs) =>
      simp [marshalExpression, unmarshalExpressionStruct, exprStructFields,
        exprFieldOf_constant_value, exprFieldOf_references, exprFieldOf_NestedBlocks,
        decodeRefsValue, decodeStringList_map_str, decodeStringList_strs, hcv, hnb, Expression.zero,
        Expression.constantValue, Expression.references, Expression.nestedBlocks]
    | .str s, none =>
      simp [marshalExpression, unmarshalExpressionStruct, exprStructFields,
        exprFieldOf_constant_value, exprFieldOf_NestedBlocks, hcv, hnb,
        Expression.zero, Expression.constantValue, Expression.references,
        Expression.nestedBlocks]
    | .str s, some [] => exact absurd rfl href'.1
    | .str s, some (r :: rs) =>
      simp [marshalExpression, unmarshalExpressionStruct, exprStructFields,
        exprFieldOf_constant_value, exprFieldOf_references, exprFieldOf_NestedBlocks,
        decodeRefsValue, decodeStringList_map_str, decodeStringList_strs, hcv, hnb, Expression.zero,
        Expression.constantValue, Expression.references, Expression.nestedBlocks]
    | .arr xs, none =>
      simp [marshalExpression, unmarshalExpressionStruct, exprStructFields,
        exprFieldOf_constant_value, exprFieldOf_NestedBlocks, hcv, hnb,
        Expression.zero, Expression.constantValue, Expression.references,
        Expression.nestedBlocks]
    | .arr xs, some [] => exact absurd rfl href'.1
    | .arr xs, some (r :: rs) =>
      simp [marshalExpression, unmarshalExpressionStruct, exprStructFields,
        exprFieldOf_constant_value, exprFieldOf_references, exprFieldOf_NestedBlocks,
        decodeRefsValue, decodeStringList_map_str, decodeStringList_strs, hcv, hnb, Expression.zero,
        Expression.constantValue, Expression.references, Expression.nestedBlocks]
    | .obj fs, none =>
      simp [marshalExpression, unmarshalExpressionStruct, exprStructFields,
        exprFieldOf_constant_value, exprFieldOf_NestedBlocks, hcv, hnb,
        Expression.zero, Expression.constantValue, Expression.references,
        Expression.nestedBlocks]
    | .obj fs, some [] => exact absurd rfl href'.1
    | .obj fs, some (r :: rs) =>
      simp [marshalExpression, unmarshalExpressionStruct, exprStructFields,
        exprFieldOf_constant_value, exprFieldOf_references, exprFieldOf_NestedBlocks,
        decodeRefsValue, decodeStringList_map_str, decodeStringList_strs, hcv, hnb, Expression.zero,
        Expression.constantValue, Expression.references, Expression.nestedBlocks]
termination_by e _ _ => sizeOf e
decreasing_by all_goals (simp_wf; try omega)

theorem marshal_nb_roundtrip : (nb : Option (List (List (String × Expression)))) →
    exprNBWF nb → noEmptyRefsNB nb → decodeNBValue (marshalNB nb) = .ok nb
  | none, _, _ => by simp [marshalNB, decodeNBValue]
  | some blocks, h1, h2 => by
    have hb := marshal_blocks_roundtrip blocks (by simpa [exprNBWF] using h1)
      (by simpa [noEmptyRefsNB] using h2)
    simp [marshalNB, decodeNBValue, hb]
termination_by nb _ _ => sizeOf nb
decreasing_by all_goals (simp_wf; try omega)

theorem marshal_blocks_roundtrip : (blocks : List (List (String × Expression))) →
    exprBlocksWF blocks → noEmptyRefsBlocks blocks →
    decodeNBElems (marshalBlocks blocks) = .ok blocks
  | [], _, _ => by simp [marshalBlocks, decodeNBElems]
  | b :: rest, h1, h2 => by
    have h1' : (mapWF b ∧ exprPairsWF b) ∧ exprBlocksWF rest := by
      simpa [exprBlocksWF] using h1
    have h2' : noEmptyRefsPairs b ∧ noEmptyRefsBlocks rest := by
      simpa [noEmptyRefsBlocks] using h2
    have hb := marshal_pairs_roundtrip b h1'.1.2 h2'.1
    have hrest := marshal_blocks_roundtrip rest h1'.2 h2'.2
    have hwfm : mapWF (marshalBlockPairs b) :=
      mapWF_of_keys_eq (marshalBlockPairs_keys b).symm h1'.1.1
    simp [marshalBlocks, decodeNBElems, mapOfList_wf_id hwfm, hb, hrest]
termination_by blocks _ _ => sizeOf blocks
decreasing_by all_goals (simp_wf; try omega)

theorem marshal_pairs_roundtrip : (b : List (String × Expression)) →
    exprPairsWF b → noEmptyRefsPairs b →
    decodeNBPairs (marshalBlockPairs b) = .ok b
  | [], _, _ => by simp [marshalBlockPairs, decodeNBPairs]
  | (k, e) :: rest, h1, h2 => by
    have h1' : exprWF e ∧ exprPairsWF rest := by simpa [exprPairsWF] using h1
    have h2' : noEmptyRefs e ∧ noEmptyRefsPairs rest := by simpa [noEmptyRefsPairs] using h2
    have he := marshal_struct_roundtrip e h1'.1 h2'.1
    have hrest := marshal_pairs_roundtrip rest h1'.2 h2'.2
    simp [marshalBlockPairs, decodeNBPairs, he, hrest]
termination_by b _ _ => sizeOf b
decreasing_by all_goals (simp_wf; try omega)

end

/-- `marshalExpression` always emits a JSON object (the untagged
`NestedBlocks` member is always present). -/
theorem marshalExpression_isObj (e : Expression) :
    ∃ fields, marshalExpression e = .obj fields := by
  obtain ⟨cv, refs, nb⟩ := e
  rcases refs with _ | ⟨(_ | ⟨r, rs⟩)⟩ <;> cases cv <;> simp [marshalExpression]

/-- Decoding the default encoding of a decoded-shape `Expression` with no
present-but-empty references recovers it exactly. -/
theorem unmarshal_marshal (e : Expression) (hwf : exprWF e) (href : noEmptyRefs e) :
    unmarshalExpression (marshalExpression e) = .ok e := by
  obtain ⟨fields, hf⟩ := marshalExpression_isObj e
  rw [hf]
  have : unmarshalExpression (.obj fields) = unmarshalExpressionStruct (.obj fields) := by
    simp [unmarshalExpression]
  rw [this, ← hf]
  exact marshal_struct_roundtrip e hwf href

/-! ## The Config document model (config.go)

Field names follow the Go source; Lean reserved words are renamed
(`Alias` → `providerAlias`, `Type` → `resourceType` / `provisionerType`,
`Variables` → `moduleVariables`).  `interface{}`-typed fields
(`ConfigVariable.Default`) use `GoValue` with `GoValue.null` as the nil
interface; `SchemaVersion uint64` is a `Nat` (no claim exercises
overflow). -/

/-- plan.go:9: `type ResourceMode string`. -/
abbrev ResourceMode := String

/-- plan.go:11-17. -/
def DataSourceMode : ResourceMode := "data"

def ManagedResourceMode : ResourceMode := "resource"

structure ConfigOutput where
  sensitive : Bool
  expression : Option Expression

structure ConfigVariable where
  defaultValue : GoValue
  description : String

structure ConfigProvisioner where
  provisionerType : String
  expressions : GoMap Expression

/-- config.go:70-114: `ConfigResource`, including the internal
`RawExpressions map[string]json.RawMessage` field that carries the raw
JSON during parsing. -/
structure ConfigResource where
  address : String
  mode : ResourceMode
  resourceType : String
  name : String
  providerConfigKey : String
  provisioners : List ConfigProvisioner
  expressions : GoMap Expression
  schemaVersion : Nat
  countExpression : Option Expression
  forEachExpression : Option Expression
  rawExpressions : GoMap Json

mutual
inductive ConfigModule where
  | mk (outputs : List (String × ConfigOutput)) (resources : List ConfigResource)
      (moduleCalls : List (String × ModuleCall)) (moduleVariables : List (String × ConfigVariable)) :
      ConfigModule
inductive ModuleCall where
  | mk (resolvedSource : String) (expressions : List (String × Expression))
      (countExpression : Option Expression) (forEachExpression : Option Expression)
      (moduleConfig : Option ConfigModule) : ModuleCall
end

structure ProviderConfig where
  name : String
  providerAlias : String
  moduleAddress : String
  expressions : GoMap Expression

/-- config.go:9-18. -/
structure Config where
  providerConfigs : GoMap ProviderConfig
  rootModule : Option ConfigModule

/-- config.go:20-27:

```go
func (c *Config) Validate() error {
    if c == nil {
        return errors.New("config is nil")
    }
    return nil
}
```

A Go method on a pointer receiver; the possibly-nil receiver is
`Option Config`, the `error` result is `Option String` (`none` = nil
error). -/
def Config.Validate : Option Config → Option String
  | none => some "config is nil"
  | some _ => none

/-! ## The Plan document model (plan.go) -/

/-- plan.go:5: the single plan format version this package supports. -/
def PlanFormatVersion : String := "0.1"

/-- plan.go:57-63. -/
structure OutputValue where
  sensitive : Bool
  value : GoValue

/-- plan.go:80-116. -/
structure Resource where
  address : String
  mode : ResourceMode
  resourceType : String
  name : String
  index : GoValue
  providerName : String
  schemaVersion : Nat
  attributeValues : GoMap GoValue

/-- plan.go:67-76 (`Module`): recursive through `ChildModules`. -/
inductive PlanModule where
  | mk (resources : List Resource) (address : String) (childModules : List PlanModule) :
      PlanModule

/-- plan.go:48-54. -/
structure StateValues where
  outputs : GoMap OutputValue
  rootModule : PlanModule

/-- plan.go:138-158.  The `Actions` type is referenced in plan.go but not
defined under src (src is incomplete there); an action is a string, so the
field is modelled as a list of strings. -/
structure Change where
  actions : List String
  before : GoMap GoValue
  after : GoMap GoValue
  afterUnknown : GoMap GoValue

/-- plan.go:121-135: embeds `Resource` and restates identity inline. -/
structure ResourceChange where
  resource : Resource
  moduleAddress : String
  deposed : Bool
  change : Change

/-- plan.go:20-44. -/
structure Plan where
  formatVersion : String
  plannedValues : StateValues
  resourceChanges : List ResourceChange
  outputChanges : GoMap Change
  priorState : StateValues

def emptyPlanModule : PlanModule := .mk [] "" []

def emptyStateValues : StateValues := ⟨[], emptyPlanModule⟩

/-- A Plan value with every field empty (format version filled per use). -/
def emptyPlan : Plan := ⟨"", emptyStateValues, [], [], emptyStateValues⟩

/-- The error kinds of the spec's version/compatibility gate (§4.4/§7). -/
inductive ValidateError where
  | missingDocument : ValidateError
  | missingVersion : ValidateError
  | versionMismatch (expected got : String) : ValidateError
deriving DecidableEq

/-- Modelled from the spec: the version/compatibility gate of §4.4 applied
to a Plan document.  The gate itself is code of this repository that is
not under src — src holds only the declarations it consumes
(`PlanFormatVersion`, `Plan.FormatVersion`; note src is demonstrably
incomplete: plan.go references the `Actions` type that no file under src
defines).  Contract per §4.4: fails MissingDocument if the document
reference is absent; fails MissingVersion if the format-version field is
empty; fails VersionMismatch(expected, got) if it does not exactly
string-equal the single supported version; passes otherwise. -/
def planValidate : Option Plan → Option ValidateError
  | none => some .missingDocument
  | some p =>
    if p.formatVersion = "" then some .missingVersion
    else if p.formatVersion ≠ PlanFormatVersion then
      some (.versionMismatch PlanFormatVersion p.formatVersion)
    else none

/-! ## `ConfigResource.UnmarshalJSON` (config.go:117-134)

```go
func (r *ConfigResource) UnmarshalJSON(b []byte) error {
    if err := json.Unmarshal(b, &r); err != nil {
        return err
    }
    r.Expressions = make(map[string]Expression)
    for k, raw := range r.RawExpressions {
        expr, err := unmarshalExpression(raw)
        if err != nil {
            return err
        }
        r.Expressions[k] = expr
    }
    r.RawExpressions = nil
    return nil
}
```

`json.Unmarshal(b, &r)` receives `**ConfigResource`.  `encoding/json`'s
`indirect` walks to the non-nil `*ConfigResource` receiver, sees that it
implements `json.Unmarshaler`, and calls `UnmarshalJSON` again with the
very same bytes — unconditional self-recursion for every valid, non-null
input (the loop below is dead code).  The remaining inputs: bytes that are
not valid JSON (modelled as input `none`) make `checkValid` fail before
anything is decoded, so the receiver is untouched; the literal `null`
makes the decoder zero the `*ConfigResource` pointer *without*
re-entering `UnmarshalJSON` (nulls break out of `indirect` at a settable
pointer), after which `r.Expressions = make(...)` dereferences the nil
pointer and panics.

`fuel` bounds the recursion depth (the Go stack); a result of `none` at
every fuel models non-termination (stack exhaustion at runtime). -/

inductive CRResult where
  | ok (r : ConfigResource) : CRResult
  | err (e : GoErr) (r : ConfigResource) : CRResult
  | panic : CRResult

/-- The expressions loop, config.go:122-131 (iteration in canonical map
order): on the first failing field the method returns the error, leaving
the partially filled `Expressions` and the still-set `RawExpressions` on
the receiver; on success `RawExpressions` is cleared. -/
def crExpressionsLoop (r : ConfigResource) :
    List (String × Json) → GoMap Expression → CRResult
  | [], acc => .ok { r with expressions := acc, rawExpressions := [] }
  | (k, raw) :: rest, acc =>
    match unmarshalExpression raw with
    | .error er => .err er { r with expressions := acc }
    | .ok ex => crExpressionsLoop r rest (mapInsert k ex acc)

def ConfigResource.UnmarshalJSON : Nat → Option Json → ConfigResource → Option CRResult
  | 0, _, _ => none
  | _ + 1, none, r => some (.err .syntaxError r)
  | _ + 1, some .null, _ => some .panic
  | fuel + 1, some j, r =>
    match ConfigResource.UnmarshalJSON fuel (some j) r with
    | none => none
    | some .panic => some .panic
    | some (.err e r') => some (.err e r')
    | some (.ok r') => some (crExpressionsLoop r' r'.rawExpressions [])

/-- For every valid JSON input other than `null`, `UnmarshalJSON` never
returns, at any recursion depth: the inner `json.Unmarshal` re-enters it
with identical arguments. -/
theorem ConfigResource.UnmarshalJSON_diverges :
    ∀ (fuel : Nat) (j : Json), j ≠ .null → ∀ r : ConfigResource,
      ConfigResource.UnmarshalJSON fuel (some j) r = none := by
  intro fuel
  induction fuel with
  | zero => intro j hj r; rfl
  | succ n ih =>
    intro j hj r
    cases j with
    | null => exact absurd rfl hj
    | bool b => simp [ConfigResource.UnmarshalJSON, ih (Json.bool b) (by simp) r]
    | num q => simp [ConfigResource.UnmarshalJSON, ih (Json.num q) (by simp) r]
    | str s => simp [ConfigResource.UnmarshalJSON, ih (Json.str s) (by simp) r]
    | arr elems => simp [ConfigResource.UnmarshalJSON, ih (Json.arr elems) (by simp) r]
    | obj fields => simp [ConfigResource.UnmarshalJSON, ih (Json.obj fields) (by simp) r]

/-- A `ConfigResource` value with every field empty. -/
def crEmpty : ConfigResource :=
  ⟨"", "", "", "", "", [], [], 0, none, none, []⟩

/-! ## Shape of the nested-blocks decoding path -/

/-- The relation between one raw block (canonical field map) and its
decoded block: same keys in the same order, each value decoded by
`unmarshalExpression`. -/
theorem unmarshalBlockPairs_spec :
    ∀ (pairs : List (String × Json)) (m : GoMap Expression),
      unmarshalBlockPairs pairs = .ok m →
      List.Forall₂ (fun (rkv : String × Json) (ekv : String × Expression) =>
        rkv.1 = ekv.1 ∧ unmarshalExpression rkv.2 = .ok ekv.2) pairs m := by
  intro pairs
  induction pairs with
  | nil =>
    intro m h
    simp only [unmarshalBlockPairs, Except.ok.injEq] at h
    simp [← h]
  | cons kv rest ih =>
    intro m h
    obtain ⟨k, v⟩ := kv
    simp only [unmarshalBlockPairs] at h
    split at h
    · simp at h
    · rename_i ex hex
      split at h
      · simp at h
      · rename_i m' hm'
        simp only [Except.ok.injEq] at h
        rw [← h]
        exact List.Forall₂.cons ⟨rfl, hex⟩ (ih m' hm')

/-- One decoded block per raw array element, in order. -/
theorem unmarshalExpressionBlocks_spec :
    ∀ (elems : List Json) (bs : List (GoMap Expression)),
      unmarshalExpressionBlocks elems = .ok bs →
      List.Forall₂ (fun (el : Json) (block : GoMap Expression) =>
        List.Forall₂ (fun (rkv : String × Json) (ekv : String × Expression) =>
          rkv.1 = ekv.1 ∧ unmarshalExpression rkv.2 = .ok ekv.2)
          (blockFieldsOf el) block) elems bs := by
  intro elems
  induction elems with
  | nil =>
    intro bs h
    simp only [unmarshalExpressionBlocks, Except.ok.injEq] at h
    simp [← h]
  | cons el rest ih =>
    intro bs h
    simp only [unmarshalExpressionBlocks] at h
    split at h
    · simp at h
    · rename_i block hblock
      split at h
      · simp at h
      · rename_i bs' hbs'
        simp only [Except.ok.injEq] at h
        rw [← h]
        exact List.Forall₂.cons (unmarshalBlockPairs_spec _ block hblock) (ih bs' hbs')

theorem blocksOrNil_mk (blocks : List (List (String × Expression))) :
    (Expression.mk .null none (if blocks.isEmpty then none else some blocks)).blocksOrNil
      = blocks := by
  cases blocks <;> simp [Expression.blocksOrNil, Expression.nestedBlocks]

/-! ## Observations on the emitted JSON -/

/-- Member lookup in a JSON object (by first occurrence; the objects the
encoder emits have distinct keys). -/
def lookupMember (j : Json) (k : String) : Option Json :=
  match j with
  | .obj fields => fields.lookup k
  | _ => none

def jsonIsObj : Json → Prop
  | .obj _ => True
  | _ => False

def jsonIsArr : Json → Prop
  | .arr _ => True
  | _ => False

theorem marshalBlocks_objs :
    ∀ (blocks : List (List (String × Expression))), ∀ x ∈ marshalBlocks blocks, jsonIsObj x := by
  intro blocks
  induction blocks with
  | nil => simp [marshalBlocks]
  | cons b rest ih =>
    intro x hx
    simp only [marshalBlocks, List.mem_cons] at hx
    rcases hx with hx | hx
    · simp [hx, jsonIsObj]
    · exact ih x hx

/-! ## Claims -/

/-- C1 (amended): whenever `unmarshalExpression` succeeds on a raw JSON
array of objects, the result carries only `NestedBlocks` — one block per
array element, in order, each block mapping the element's (deduplicated)
field names to recursively decoded Expressions — and never a constant or
references payload.  (As originally stated the claim fails: decoding does
not always yield an Expression, because an inner value that fits neither
recognized shape makes the whole decode fail; see the counterexample.) -/
theorem c1_nestedBlocks_shape (elems : List Json) (e : Expression)
    (hobjs : ∀ el ∈ elems, ∃ f, el = Json.obj f)
    (hdec : unmarshalExpression (.arr elems) = .ok e) :
    e.constantValue = .null ∧ e.references = none ∧
    e.blocksOrNil.length = elems.length ∧
    List.Forall₂ (fun (el : Json) (block : GoMap Expression) =>
      List.Forall₂ (fun (rkv : String × Json) (ekv : String × Expression) =>
        rkv.1 = ekv.1 ∧ unmarshalExpression rkv.2 = .ok ekv.2)
        (blockFieldsOf el) block) elems e.blocksOrNil := by
  have hall : elems.all isObjOrNull = true := by
    rw [List.all_eq_true]
    intro el hel
    obtain ⟨f, hf⟩ := hobjs el hel
    simp [hf, isObjOrNull]
  simp only [unmarshalExpression, hall, if_true] at hdec
  split at hdec
  · simp at hdec
  · rename_i blocks hblocks
    simp only [Except.ok.injEq] at hdec
    have hspec := unmarshalExpressionBlocks_spec elems blocks hblocks
    rw [← hdec]
    refine ⟨by simp [Expression.constantValue], by simp [Expression.references], ?_, ?_⟩
    · rw [blocksOrNil_mk]
      exact hspec.length_eq.symm
    · rw [blocksOrNil_mk]
      exact hspec

/-- Witness for C1 at the concrete input `[{"a": {}}]`. -/
theorem c1_nestedBlocks_shape_witness :
    (∀ el ∈ [Json.obj [("a", Json.obj [])]], ∃ f, el = Json.obj f) ∧
    unmarshalExpression (.arr [.obj [("a", .obj [])]]) =
      .ok (.mk .null none (some [[("a", Expression.zero)]])) ∧
    ((Expression.mk .null none (some [[("a", Expression.zero)]])).constantValue = .null ∧
     (Expression.mk .null none (some [[("a", Expression.zero)]])).references = none ∧
     (Expression.mk .null none (some [[("a", Expression.zero)]])).blocksOrNil.length =
       [Json.obj [("a", Json.obj [])]].length ∧
     List.Forall₂ (fun (el : Json) (block : GoMap Expression) =>
       List.Forall₂ (fun (rkv : String × Json) (ekv : String × Expression) =>
         rkv.1 = ekv.1 ∧ unmarshalExpression rkv.2 = .ok ekv.2)
         (blockFieldsOf el) block)
       [Json.obj [("a", Json.obj [])]]
       (Expression.mk .null none (some [[("a", Expression.zero)]])).blocksOrNil) :=
  ⟨by
      intro el hel
      rw [List.mem_singleton] at hel
      exact ⟨_, hel⟩,
   by
      simp [unmarshalExpression, isObjOrNull, unmarshalExpressionBlocks, unmarshalBlockPairs,
        blockFieldsOf, mapOfList, mapInsert, unmarshalExpressionStruct, exprStructFields,
        Expression.zero],
   c1_nestedBlocks_shape [Json.obj [("a", Json.obj [])]]
     (.mk .null none (some [[("a", Expression.zero)]]))
     (by
       intro el hel
       rw [List.mem_singleton] at hel
       exact ⟨_, hel⟩)
     (by
       simp [unmarshalExpression, isObjOrNull, unmarshalExpressionBlocks, unmarshalBlockPairs,
         blockFieldsOf, mapOfList, mapInsert, unmarshalExpressionStruct, exprStructFields,
         Expression.zero])⟩

/-- C1 counterexample: the raw JSON `[{"a": 5}]` is an array of objects,
yet decoding yields no Expression at all — it fails, because the inner
value `5` fits neither an array-of-objects nor an `Expression` object. -/
theorem c1_scalar_in_block_errors :
    unmarshalExpression (.arr [.obj [("a", .num 5)]]) =
      .error (.cannotUnmarshal "number") := by
  simp [unmarshalExpression, isObjOrNull, unmarshalExpressionBlocks, unmarshalBlockPairs,
    blockFieldsOf, mapOfList, mapInsert, unmarshalExpressionStruct]

/-- C2 (amended): for a top-level JSON array input, a successfully decoded
Expression never carries a constant or references payload (only
`NestedBlocks` may be populated).  For object inputs the three payloads
are NOT mutually exclusive; see the counterexample. -/
theorem c2_array_path_exclusive (elems : List Json) (e : Expression)
    (hdec : unmarshalExpression (.arr elems) = .ok e) :
    e.constantValue = .null ∧ e.references = none := by
  simp only [unmarshalExpression] at hdec
  split at hdec
  · split at hdec
    · simp at hdec
    · simp only [Except.ok.injEq] at hdec
      rw [← hdec]
      simp [Expression.constantValue, Expression.references]
  · simp [unmarshalExpressionStruct] at hdec

/-- Witness for C2 at the concrete input `[null]`. -/
theorem c2_array_path_exclusive_witness :
    unmarshalExpression (.arr [.null]) = .ok (.mk .null none (some [[]])) ∧
    ((Expression.mk .null none (some [[]])).constantValue = .null ∧
     (Expression.mk .null none (some [[]])).references = none) :=
  ⟨by simp [unmarshalExpression, isObjOrNull, unmarshalExpressionBlocks, unmarshalBlockPairs,
      blockFieldsOf],
   c2_array_path_exclusive [Json.null] (.mk .null none (some [[]]))
     (by simp [unmarshalExpression, isObjOrNull, unmarshalExpressionBlocks, unmarshalBlockPairs,
       blockFieldsOf])⟩

/-- C2 counterexample: `{"constant_value":5,"references":["a"]}` decodes
successfully to an Expression carrying BOTH a constant value and a
non-empty references list — the payloads are not mutually exclusive on
the same decoded Expression. -/
theorem c2_constant_and_references_coexist :
    unmarshalExpression (.obj [("constant_value", .num 5), ("references", .arr [.str "a"])]) =
      .ok (.mk (.num 5) (some ["a"]) none) ∧
    Expression.constantValue (.mk (.num 5) (some ["a"]) none) ≠ .null ∧
    Expression.references (.mk (.num 5) (some ["a"]) none) ≠ none ∧
    Expression.references (.mk (.num 5) (some ["a"]) none) ≠ some [] := by
  refine ⟨?_, ?_, ?_, ?_⟩
  · simp [unmarshalExpression, unmarshalExpressionStruct, exprStructFields, exprFieldOf,
      decodeRefsValue, decodeStringList, decodeStringElem, goUnmarshalValue, Expression.zero,
      Expression.references, Expression.nestedBlocks, Expression.constantValue]
  · simp [Expression.constantValue]
  · simp [Expression.references]
  · simp [Expression.references]

/-- C3 (amended): decode-then-encode-then-decode is the identity on every
decoded Expression that nowhere carries a present-but-empty references
slice.  (A present empty `references` member decodes to an empty non-nil
slice, which `omitempty` silently drops on encode, so the second decode
returns a nil slice instead — see the counterexample.) -/
theorem c3_decode_encode_roundtrip (j : Json) (e : Expression)
    (hdec : unmarshalExpression j = .ok e) (href : noEmptyRefs e) :
    unmarshalExpression (marshalExpression e) = .ok e :=
  unmarshal_marshal e (unmarshalExpression_wf j e hdec) href

/-- Witness for C3 at the concrete input `{"constant_value": 5}`. -/
theorem c3_decode_encode_roundtrip_witness :
    (unmarshalExpression (.obj [("constant_value", .num 5)]) =
      .ok (.mk (.num 5) none none) ∧
     noEmptyRefs (.mk (.num 5) none none)) ∧
    unmarshalExpression (marshalExpression (.mk (.num 5) none none)) =
      .ok (.mk (.num 5) none none) :=
  ⟨⟨by simp [unmarshalExpression, unmarshalExpressionStruct, exprStructFields, exprFieldOf,
        goUnmarshalValue, Expression.zero, Expression.references, Expression.nestedBlocks,
        Expression.constantValue],
    by simp [noEmptyRefs, noEmptyRefsNB]⟩,
   c3_decode_encode_roundtrip (.obj [("constant_value", .num 5)]) (.mk (.num 5) none none)
     (by simp [unmarshalExpression, unmarshalExpressionStruct, exprStructFields, exprFieldOf,
        goUnmarshalValue, Expression.zero, Expression.references, Expression.nestedBlocks,
        Expression.constantValue])
     (by simp [noEmptyRefs, noEmptyRefsNB])⟩

/-- C3 counterexample: `{"references": []}` decodes to an Expression with
a present empty references slice; encoding drops the member, and decoding
the result yields the all-nil Expression, which is NOT structurally equal
(a nil slice differs from an empty one under `reflect.DeepEqual`). -/
theorem c3_empty_references_breaks_roundtrip :
    unmarshalExpression (.obj [("references", .arr [])]) =
      .ok (.mk .null (some []) none) ∧
    unmarshalExpression (marshalExpression (.mk .null (some []) none)) =
      .ok (.mk .null none none) ∧
    Expression.mk .null (some []) none ≠ .mk .null none none := by
  refine ⟨?_, ?_, ?_⟩
  · simp [unmarshalExpression, unmarshalExpressionStruct, exprStructFields, exprFieldOf,
      decodeRefsValue, decodeStringList, Expression.zero, Expression.references,
      Expression.nestedBlocks, Expression.constantValue]
  · rw [show marshalExpression (.mk .null (some []) none) = .obj [("NestedBlocks", .null)] from
      by simp [marshalExpression, marshalNB]]
    simp [unmarshalExpression, unmarshalExpressionStruct, exprStructFields, exprFieldOf,
      decodeNBValue, Expression.zero, Expression.references, Expression.nestedBlocks,
      Expression.constantValue]
  · simp

/-- C4 (amended): `Expression` has no custom `MarshalJSON`, so EVERY
Expression — nested blocks included — encodes as a JSON *object*: the
`constant_value` member appears iff the constant is non-nil, the
`references` member appears iff the slice is present and non-empty, and
an always-present `NestedBlocks` member carries the nil slice as `null`
or the blocks as an array of objects of recursively encoded Expressions.
(The original claim — a non-empty NestedBlocks encodes as a top-level
JSON array — is false; see the counterexample.) -/
theorem c4_encoding_shape (e : Expression) :
    jsonIsObj (marshalExpression e) ∧
    ((lookupMember (marshalExpression e) "constant_value").isSome ↔
      e.constantValue ≠ .null) ∧
    ((lookupMember (marshalExpression e) "references").isSome ↔
      ∃ l, e.references = some l ∧ l ≠ []) ∧
    lookupMember (marshalExpression e) "NestedBlocks" = some (marshalNB e.nestedBlocks) ∧
    (∀ blocks, e.nestedBlocks = some blocks →
      marshalNB e.nestedBlocks = .arr (marshalBlocks blocks)) ∧
    (∀ blocks, ∀ x ∈ marshalBlocks blocks, jsonIsObj x) := by
  obtain ⟨cv, refs, nb⟩ := e
  refine ⟨?_, ?_, ?_, ?_, ?_, fun blocks x hx => marshalBlocks_objs blocks x hx⟩
  · rcases refs with _ | ⟨(_ | ⟨r, rs⟩)⟩ <;> cases cv <;>
      simp [marshalExpression, jsonIsObj]
  · rcases refs with _ | ⟨(_ | ⟨r, rs⟩)⟩ <;> cases cv <;>
      simp [marshalExpression, lookupMember, List.lookup, Expression.constantValue]
  · rcases refs with _ | ⟨(_ | ⟨r, rs⟩)⟩ <;> cases cv <;>
      simp [marshalExpression, lookupMember, List.lookup, Expression.references]
  · rcases refs with _ | ⟨(_ | ⟨r, rs⟩)⟩ <;> cases cv <;>
      simp [marshalExpression, lookupMember, List.lookup, Expression.nestedBlocks]
  · intro blocks hb
    rw [hb]
    simp [marshalNB]

/-- Witness for C4 at a concrete Expression with one nested block. -/
theorem c4_encoding_shape_witness :
    jsonIsObj (marshalExpression (.mk .null none (some [[]]))) ∧
    ((lookupMember (marshalExpression (.mk .null none (some [[]]))) "constant_value").isSome ↔
      (Expression.mk .null none (some [[]])).constantValue ≠ .null) ∧
    ((lookupMember (marshalExpression (.mk .null none (some [[]]))) "references").isSome ↔
      ∃ l, (Expression.mk .null none (some [[]])).references = some l ∧ l ≠ []) ∧
    lookupMember (marshalExpression (.mk .null none (some [[]]))) "NestedBlocks" =
      some (marshalNB (Expression.mk .null none (some [[]])).nestedBlocks) ∧
    (∀ blocks, (Expression.mk .null none (some [[]])).nestedBlocks = some blocks →
      marshalNB (Expression.mk .null none (some [[]])).nestedBlocks =
        .arr (marshalBlocks blocks)) ∧
    (∀ blocks, ∀ x ∈ marshalBlocks blocks, jsonIsObj x) :=
  c4_encoding_shape (.mk .null none (some [[]]))

/-- C4 counterexample: the Expression holding one nested block
`[{"a": const 5}]` does not encode as a JSON array — it encodes as the
object `{"NestedBlocks":[{"a":{"constant_value":5,"NestedBlocks":null}}]}`. -/
theorem c4_nested_blocks_encode_as_object :
    marshalExpression (.mk .null none (some [[("a", .mk (.num 5) none none)]])) =
      .obj [("NestedBlocks",
        .arr [.obj [("a", .obj [("constant_value", .num 5), ("NestedBlocks", .null)])]])] ∧
    ¬ jsonIsArr (marshalExpression (.mk .null none (some [[("a", .mk (.num 5) none none)]]))) := by
  have h : marshalExpression (.mk .null none (some [[("a", .mk (.num 5) none none)]])) =
      .obj [("NestedBlocks",
        .arr [.obj [("a", .obj [("constant_value", .num 5), ("NestedBlocks", .null)])]])] := by
    simp [marshalExpression, marshalNB, marshalBlocks, marshalBlockPairs, encodeGoValue]
  refine ⟨h, ?_⟩
  rw [h]
  simp [jsonIsArr]

/-- C5 (spec-modelled version gate, §4.4): on a document whose
format-version is empty the gate yields MissingVersion; on `"9.9"` while
the library supports `"0.1"` it yields VersionMismatch; and on the
matching version with an otherwise-empty document it passes. -/
theorem c5_version_gate :
    planValidate (some { emptyPlan with formatVersion := "" }) = some .missingVersion ∧
    planValidate (some { emptyPlan with formatVersion := "9.9" }) =
      some (.versionMismatch "0.1" "9.9") ∧
    planValidate (some { emptyPlan with formatVersion := "0.1" }) = none ∧
    PlanFormatVersion = "0.1" := by
  refine ⟨rfl, ?_, ?_, rfl⟩ <;> simp [planValidate, PlanFormatVersion, emptyPlan]

/-- C6: `Config.Validate` returns its (only) error exactly when the
receiver is nil; every non-nil document passes, and the result is
independent of every field of the document. -/
theorem c6_validate_presence_only :
    Config.Validate none = some "config is nil" ∧
    (∀ copt : Option Config, (Config.Validate copt).isSome ↔ copt = none) ∧
    (∀ c c' : Config, Config.Validate (some c) = Config.Validate (some c')) := by
  refine ⟨rfl, ?_, fun c c' => rfl⟩
  intro copt
  cases copt <;> simp [Config.Validate]

/-- C7 (amended): `{"constant_value": 5}` decodes to a constant Expression
holding the number 5, with no references and no nested blocks, and
`{"references": ["var.foo"]}` decodes to exactly the reference list
`["var.foo"]` with no constant — but re-encoding the constant Expression
yields `{"constant_value":5,"NestedBlocks":null}`, which carries an extra
always-present `NestedBlocks` member (not canonically equivalent to the
source document; see the counterexample). -/
theorem c7_end_to_end_scenarios :
    unmarshalExpression (.obj [("constant_value", .num 5)]) =
      .ok (.mk (.num 5) none none) ∧
    marshalExpression (.mk (.num 5) none none) =
      .obj [("constant_value", .num 5), ("NestedBlocks", .null)] ∧
    unmarshalExpression (.obj [("references", .arr [.str "var.foo"])]) =
      .ok (.mk .null (some ["var.foo"]) none) := by
  refine ⟨?_, ?_, ?_⟩
  · simp [unmarshalExpression, unmarshalExpressionStruct, exprStructFields, exprFieldOf,
      goUnmarshalValue, Expression.zero, Expression.references, Expression.nestedBlocks,
      Expression.constantValue]
  · simp [marshalExpression, marshalNB, encodeGoValue]
  · simp [unmarshalExpression, unmarshalExpressionStruct, exprStructFields, exprFieldOf,
      decodeRefsValue, decodeStringList, decodeStringElem, Expression.zero,
      Expression.references, Expression.nestedBlocks, Expression.constantValue]

/-- C7 counterexample: re-encoding the Expression decoded from
`{"constant_value": 5}` does not yield JSON canonically equivalent to
`{"constant_value":5}` — the emitted object carries an additional
`NestedBlocks: null` member that the source document lacks. -/
theorem c7_reencoding_not_canonical :
    marshalExpression (.mk (.num 5) none none) ≠ .obj [("constant_value", .num 5)] ∧
    lookupMember (marshalExpression (.mk (.num 5) none none)) "NestedBlocks" = some .null ∧
    lookupMember (.obj [("constant_value", .num 5)]) "NestedBlocks" = none := by
  have h : marshalExpression (.mk (.num 5) none none) =
      .obj [("constant_value", .num 5), ("NestedBlocks", .null)] := by
    simp [marshalExpression, marshalNB, encodeGoValue]
  refine ⟨?_, ?_, ?_⟩
  · rw [h]
    simp
  · rw [h]
    simp [lookupMember, List.lookup]
  · simp [lookupMember, List.lookup]

/-- C9: whenever `ConfigResource.UnmarshalJSON` returns an error, nothing
of the input has been decoded into the receiver: the error is the
syntax-check failure on invalid JSON, raised before any field is written,
and the receiver the caller holds is exactly its prior value.  (The
expression-loop error path of config.go:125-127 is unreachable, because
the preceding `json.Unmarshal(b, &r)` never returns on well-formed input
— see C10.) -/
theorem c9_error_all_or_nothing :
    ∀ (fuel : Nat) (input : Option Json) (r₀ : ConfigResource) (er : GoErr)
      (r' : ConfigResource),
      ConfigResource.UnmarshalJSON fuel input r₀ = some (.err er r') →
      r' = r₀ ∧ er = .syntaxError ∧ input = none := by
  intro fuel input r₀ er r' h
  cases fuel with
  | zero => simp [ConfigResource.UnmarshalJSON] at h
  | succ n =>
    cases input with
    | none =>
      simp only [ConfigResource.UnmarshalJSON, Option.some.injEq, CRResult.err.injEq] at h
      exact ⟨h.2.symm, h.1.symm, rfl⟩
    | some j =>
      cases j with
      | null => simp [ConfigResource.UnmarshalJSON] at h
      | bool b =>
        rw [ConfigResource.UnmarshalJSON_diverges (n + 1) (.bool b) (by simp) r₀] at h
        exact Option.noConfusion h
      | num q =>
        rw [ConfigResource.UnmarshalJSON_diverges (n + 1) (.num q) (by simp) r₀] at h
        exact Option.noConfusion h
      | str s =>
        rw [ConfigResource.UnmarshalJSON_diverges (n + 1) (.str s) (by simp) r₀] at h
        exact Option.noConfusion h
      | arr elems =>
        rw [ConfigResource.UnmarshalJSON_diverges (n + 1) (.arr elems) (by simp) r₀] at h
        exact Option.noConfusion h
      | obj fields =>
        rw [ConfigResource.UnmarshalJSON_diverges (n + 1) (.obj fields) (by simp) r₀] at h
        exact Option.noConfusion h

/-- Witness for C9 at the concrete input "not valid JSON" with the empty
receiver. -/
theorem c9_error_all_or_nothing_witness :
    ConfigResource.UnmarshalJSON 1 none crEmpty = some (.err .syntaxError crEmpty) ∧
    (crEmpty = crEmpty ∧ GoErr.syntaxError = .syntaxError ∧ (none : Option Json) = none) :=
  ⟨rfl, c9_error_all_or_nothing 1 none crEmpty .syntaxError crEmpty rfl⟩

/-- C10: the claim — `ConfigResource.UnmarshalJSON` terminates on every
input — is contradicted by the code: `json.Unmarshal(b, &r)` on the
receiver pointer re-enters `UnmarshalJSON` with identical arguments, so
on the input `{}` (as on every valid non-null JSON document) the method
recurses until the stack is exhausted and never produces a result, at any
recursion depth. -/
theorem c10_unmarshal_never_returns :
    ∀ (fuel : Nat) (r : ConfigResource),
      ConfigResource.UnmarshalJSON fuel (some (.obj [])) r = none :=
  fun fuel r => ConfigResource.UnmarshalJSON_diverges fuel (.obj []) (by simp) r

end TfJson